import Mathlib

/-!
Verification development for the `Metadata_Extraction` repository
(`extract_metadata.py`, class `PaperProcessor`).

The Python code is shallowly embedded:

* Python/JSON values (the loosely typed metadata records that flow between
  `json.loads`, `normalize_metadata` and the store) are modelled by the
  inductive type `Value`; Python `dict`s are association lists
  (`List (String × Value)`) with first-binding lookup semantics.
* String manipulation done by the code (`str.replace`, `str.split`,
  `str.strip`, `in`) is modelled by structurally recursive functions on
  `List Char` / `String` so that every definition is executable and
  kernel-reducible.
* The external collaborators (PyPDF2 text extraction, the Gemini
  completion call, `json.loads`) are oracles passed in as parameters:
  the extracted text as a `String`, the per-attempt API outcome as
  `Nat → ApiResult`, and the JSON parse as `List Char → Option Value`.
* The orchestrator `process_directory` and the ledger/store files are
  modelled as a state machine over `PFS` (store file contents + ledger
  file contents), with a per-candidate outcome oracle recording where,
  if anywhere, an exception is raised inside the per-file `try` block.
  File writes are modelled as atomic.
-/

namespace MetadataExtraction

/-- Model of a Python/JSON value as it appears in metadata records. -/
inductive Value where
  | str (s : String)
  | int (n : Int)
  | bool (b : Bool)
  | null
  | list (xs : List Value)
  | dict (entries : List (String × Value))

mutual

/-- Decidable equality on `Value` (written by hand: `deriving` does not
handle the nested occurrences). -/
def decEqValue : (a b : Value) → Decidable (a = b)
  | .str s, .str t =>
      match String.decEq s t with
      | isTrue h => isTrue (by rw [h])
      | isFalse h => isFalse (by simp [h])
  | .int m, .int n =>
      match Int.decEq m n with
      | isTrue h => isTrue (by rw [h])
      | isFalse h => isFalse (by simp [h])
  | .bool a, .bool b =>
      match Bool.decEq a b with
      | isTrue h => isTrue (by rw [h])
      | isFalse h => isFalse (by simp [h])
  | .null, .null => isTrue rfl
  | .list xs, .list ys =>
      match decEqValueList xs ys with
      | isTrue h => isTrue (by rw [h])
      | isFalse h => isFalse (by simp [h])
  | .dict xs, .dict ys =>
      match decEqValueEntries xs ys with
      | isTrue h => isTrue (by rw [h])
      | isFalse h => isFalse (by simp [h])
  | .str _, .int _ => isFalse (by simp)
  | .str _, .bool _ => isFalse (by simp)
  | .str _, .null => isFalse (by simp)
  | .str _, .list _ => isFalse (by simp)
  | .str _, .dict _ => isFalse (by simp)
  | .int _, .str _ => isFalse (by simp)
  | .int _, .bool _ => isFalse (by simp)
  | .int _, .null => isFalse (by simp)
  | .int _, .list _ => isFalse (by simp)
  | .int _, .dict _ => isFalse (by simp)
  | .bool _, .str _ => isFalse (by simp)
  | .bool _, .int _ => isFalse (by simp)
  | .bool _, .null => isFalse (by simp)
  | .bool _, .list _ => isFalse (by simp)
  | .bool _, .dict _ => isFalse (by simp)
  | .null, .str _ => isFalse (by simp)
  | .null, .int _ => isFalse (by simp)
  | .null, .bool _ => isFalse (by simp)
  | .null, .list _ => isFalse (by simp)
  | .null, .dict _ => isFalse (by simp)
  | .list _, .str _ => isFalse (by simp)
  | .list _, .int _ => isFalse (by simp)
  | .list _, .bool _ => isFalse (by simp)
  | .list _, .null => isFalse (by simp)
  | .list _, .dict _ => isFalse (by simp)
  | .dict _, .str _ => isFalse (by simp)
  | .dict _, .int _ => isFalse (by simp)
  | .dict _, .bool _ => isFalse (by simp)
  | .dict _, .null => isFalse (by simp)
  | .dict _, .list _ => isFalse (by simp)

/-- Decidable equality on lists of `Value`. -/
def decEqValueList : (as bs : List Value) → Decidable (as = bs)
  | [], [] => isTrue rfl
  | [], _ :: _ => isFalse (by simp)
  | _ :: _, [] => isFalse (by simp)
  | a :: as, b :: bs =>
      match decEqValue a b, decEqValueList as bs with
      | isTrue h1, isTrue h2 => isTrue (by rw [h1, h2])
      | isFalse h1, _ => isFalse (by simp [h1])
      | _, isFalse h2 => isFalse (by simp [h2])

/-- Decidable equality on dict entry lists. -/
def decEqValueEntries : (as bs : List (String × Value)) → Decidable (as = bs)
  | [], [] => isTrue rfl
  | [], _ :: _ => isFalse (by simp)
  | _ :: _, [] => isFalse (by simp)
  | (k1, v1) :: as, (k2, v2) :: bs =>
      match String.decEq k1 k2, decEqValue v1 v2, decEqValueEntries as bs with
      | isTrue hk, isTrue hv, isTrue h2 => isTrue (by rw [hk, hv, h2])
      | isFalse hk, _, _ =>
          isFalse (by intro hc; injection hc with hpair hrest; exact hk (congrArg Prod.fst hpair))
      | _, isFalse hv, _ =>
          isFalse (by intro hc; injection hc with hpair hrest; exact hv (congrArg Prod.snd hpair))
      | _, _, isFalse h2 =>
          isFalse (by intro hc; injection hc with hpair hrest; exact h2 hrest)

end

instance : DecidableEq Value := decEqValue

/-- A Python dict with string keys, as an association list
(first binding wins, mirroring dict lookup). -/
abbrev Dict := List (String × Value)

/-- Python `d[k]` lookup (first binding). -/
def dget : Dict → String → Option Value
  | [], _ => none
  | (k', v) :: rest, k => if k' = k then some v else dget rest k

/-- Python `d[k] = v` assignment: replace the first binding of `k`,
or append if absent. -/
def dset : Dict → String → Value → Dict
  | [], k, v => [(k, v)]
  | (k', v') :: rest, k, v =>
      if k' = k then (k, v) :: rest else (k', v') :: dset rest k v

/-- Python `k in d` key-membership test. -/
def dmem (d : Dict) (k : String) : Bool := (dget d k).isSome

/-- Python `d.get(k, dflt)`. -/
def pyGet (d : Dict) (k : String) (dflt : Value) : Value := (dget d k).getD dflt

/-- `PaperProcessor.get_default_metadata`: the default record, all scalar
fields `"unknown"`, `authors = ["unknown"]`, `keywords = []`. -/
def get_default_metadata : Dict :=
  [ ("title", .str "unknown"),
    ("authors", .list [.str "unknown"]),
    ("year", .str "unknown"),
    ("journal", .str "unknown"),
    ("doi", .str "unknown"),
    ("keywords", .list []),
    ("abstract", .str "unknown") ]

/-- The iteration order of `get_default_metadata`'s keys (Python dicts
iterate in insertion order), used by the missing-field fill loop. -/
def defaultKeys : List String :=
  ["title", "authors", "year", "journal", "doi", "keywords", "abstract"]

/-- `default_metadata[key]` as used in the fill loop. -/
def defaultVal (k : String) : Value := pyGet get_default_metadata k .null

example : dget get_default_metadata "keywords" = some (.list []) := by decide
example : dmem get_default_metadata "authors" = true := by decide
example : dset [("a", .int 1)] "a" (.int 2) = [("a", .int 2)] := by decide

/-! ### Python string primitives, modelled on `List Char` -/

/-- The whitespace characters stripped by Python `str.strip()`
(ASCII fragment; the code never feeds other whitespace). -/
def isPySpace (c : Char) : Bool :=
  c = ' ' || c = '\t' || c = '\n' || c = '\r' || c = '\x0b' || c = '\x0c'

/-- Python `str.strip()` on a character list. -/
def pyStrip (s : List Char) : List Char :=
  ((s.dropWhile isPySpace).reverse.dropWhile isPySpace).reverse

/-- Python `str.strip()` on a `String`. -/
def pyStripS (s : String) : String := (pyStrip s.data).asString

/-- Python `str.split(sep)` for a one-character separator
(`"".split(',') = [""]`, empty pieces kept). -/
def splitOnChar (sep : Char) : List Char → List (List Char)
  | [] => [[]]
  | c :: rest =>
      if c = sep then [] :: splitOnChar sep rest
      else
        match splitOnChar sep rest with
        | [] => [[c]]
        | g :: gs => (c :: g) :: gs

/-- `',' in s or ';' in s`: the separator test of `normalize_metadata`. -/
def hasSep (s : String) : Bool := s.data.contains ',' || s.data.contains ';'

/-- `s.replace(';', ',').split(',')` followed by
`[a.strip() for a in ...]` and `[a for a in ... if a]`:
the splitting done by `normalize_metadata` on authors/keywords strings. -/
def sepSplitPieces (s : String) : List (List Char) :=
  ((splitOnChar ',' (s.data.map fun c => if c = ';' then ',' else c)).map pyStrip).filter
    (fun p => !p.isEmpty)

/-- The split pieces as `String`s. -/
def sepSplit (s : String) : List String := (sepSplitPieces s).map List.asString

/-! ### Python `str()` / truthiness on `Value` -/

mutual

/-- Python `repr` of a value (used by `str` on containers). String
escaping subtleties inside `repr` are not modelled; no theorem depends
on the rendering of containers. -/
def pyRepr : Value → String
  | .str s => "'" ++ s ++ "'"
  | .int n => toString n
  | .bool b => if b then "True" else "False"
  | .null => "None"
  | .list xs => "[" ++ pyReprList xs ++ "]"
  | .dict d => "\x7b" ++ pyReprEntries d ++ "\x7d"

/-- Comma-separated `repr`s of list elements. -/
def pyReprList : List Value → String
  | [] => ""
  | [x] => pyRepr x
  | x :: rest => pyRepr x ++ ", " ++ pyReprList rest

/-- Comma-separated `repr`s of dict entries. -/
def pyReprEntries : List (String × Value) → String
  | [] => ""
  | [(k, v)] => "'" ++ k ++ "': " ++ pyRepr v
  | (k, v) :: rest => "'" ++ k ++ "': " ++ pyRepr v ++ ", " ++ pyReprEntries rest

end

/-- Python `str(v)`. -/
def pyStr : Value → String
  | .str s => s
  | v => pyRepr v

/-- Python truthiness (`if v:`). -/
def pyTruthy : Value → Bool
  | .str s => !s.data.isEmpty
  | .int n => n != 0
  | .bool b => b
  | .null => false
  | .list xs => !xs.isEmpty
  | .dict d => !d.isEmpty

/-! ### `PaperProcessor.normalize_metadata` -/

/-- The name derivation for a dict-shaped author entry:
`name`, else `f"{first_name} {last_name}".strip()`, else `full_name`.
The result can be any `Value` (the code appends whatever truthy value
it finds). -/
def deriveName (d : Dict) : Value :=
  let n1 := pyGet d "name" (.str "")
  let n2 :=
    if !pyTruthy n1 then
      .str (pyStripS (pyStr (pyGet d "first_name" (.str "")) ++ " " ++
        pyStr (pyGet d "last_name" (.str ""))))
    else n1
  if !pyTruthy n2 then pyGet d "full_name" (.str "") else n2

/-- The `author_strings` accumulation loop over a list-shaped
`authors` value. -/
def authorStrings : List Value → List Value
  | [] => []
  | .dict d :: rest =>
      let n := deriveName d
      if pyTruthy n then n :: authorStrings rest else authorStrings rest
  | a :: rest => .str (pyStr a) :: authorStrings rest

/-- Normalization of the `authors` value. -/
def normalizeAuthorsVal : Value → Value
  | .list xs =>
      let as := authorStrings xs
      .list (if as.isEmpty then [.str "unknown"] else as)
  | .str s =>
      if hasSep s then .list ((sepSplit s).map .str)
      else .list (if s.data.isEmpty then [.str "unknown"] else [.str s])
  | _ => .list [.str "unknown"]

/-- Normalization of the `keywords` value. -/
def normalizeKeywordsVal : Value → Value
  | .list xs => .list (xs.map fun k => .str (pyStr k))
  | .str s =>
      if hasSep s then .list ((sepSplit s).map .str)
      else .list (if s.data.isEmpty then [] else [.str s])
  | _ => .list []

/-- The `if 'authors' in normalized:` block of `normalize_metadata`. -/
def normalizeAuthorsStep (m : Dict) : Dict :=
  if dmem m "authors" then dset m "authors" (normalizeAuthorsVal (pyGet m "authors" .null))
  else m

/-- The `if 'keywords' in normalized:` block of `normalize_metadata`. -/
def normalizeKeywordsStep (m : Dict) : Dict :=
  if dmem m "keywords" then dset m "keywords" (normalizeKeywordsVal (pyGet m "keywords" .null))
  else m

/-- `PaperProcessor.normalize_metadata`: normalize `authors` then
`keywords` in place (each only when the key is present); all other
fields pass through unchanged. -/
def normalize_metadata (m : Dict) : Dict :=
  normalizeKeywordsStep (normalizeAuthorsStep m)

example :
    normalize_metadata [("authors", .str "Doe, J.; Smith, A.")] =
      [("authors", .list [.str "Doe", .str "J.", .str "Smith", .str "A."])] := by decide

example :
    normalize_metadata
        [("authors", .list [.dict [("first_name", .str "Jane"), ("last_name", .str "Smith")]])] =
      [("authors", .list [.str "Jane Smith"])] := by decide

example :
    normalize_metadata [("authors", .list [])] = [("authors", .list [.str "unknown"])] := by decide

example :
    normalize_metadata [("authors", .str ",")] = [("authors", .list [])] := by decide

example :
    normalize_metadata [("authors", .list []), ("keywords", .str "a; b")] =
      [("authors", .list [.str "unknown"]), ("keywords", .list [.str "a", .str "b"])] := by decide

/-! ### `PaperProcessor.extract_metadata_from_pdf` -/

/-- Outcome of one `client.models.generate_content` call:
either a response text (`response.text`) or a raised exception. -/
inductive ApiResult where
  | ok (raw : List Char)
  | err
deriving DecidableEq

/-- Outcome of the body of one attempt of the retry loop: a returned
value, or an exception propagating to the `except` handler. -/
inductive AttemptOut where
  | ret (v : Value)
  | raise
deriving DecidableEq

/-- The characters of `"```json"`. -/
def fenceJson : List Char := "```json".data

/-- The characters of `"```"`. -/
def fence : List Char := "```".data

/-- Fuel-driven core of Python `str.replace(pat, rep)`: replace every
non-overlapping occurrence, scanning left to right. The fuel argument
only makes the recursion structural; `replaceAll` supplies `s.length`,
which always suffices since every step consumes at least one character
(the code only uses nonempty patterns). -/
def replaceAllFuel (pat rep : List Char) : Nat → List Char → List Char
  | _, [] => []
  | 0, s => s
  | f + 1, c :: rest =>
      if pat.isPrefixOf (c :: rest) then
        rep ++ replaceAllFuel pat rep f ((c :: rest).drop pat.length)
      else c :: replaceAllFuel pat rep f rest

/-- Python `s.replace(pat, rep)` for a nonempty pattern. -/
def replaceAll (pat rep s : List Char) : List Char :=
  replaceAllFuel pat rep s.length s

/-- The response cleanup in `extract_metadata_from_pdf`:
`content = response.text.strip()`, then, if `content` starts with a
markdown fence, `content.replace("```json", "").replace("```", "").strip()`
(resp. `content.replace("```", "").strip()` for a plain fence). -/
def cleanResponseText (raw : List Char) : List Char :=
  let content := pyStrip raw
  if fenceJson.isPrefixOf content then
    pyStrip (replaceAll fence [] (replaceAll fenceJson [] content))
  else if fence.isPrefixOf content then
    pyStrip (replaceAll fence [] content)
  else content

/-- Substring test (Python `pat in s` on strings). -/
def hasInfix (pat : List Char) : List Char → Bool
  | [] => pat.isEmpty
  | c :: rest => pat.isPrefixOf (c :: rest) || hasInfix pat rest

/-- Python `k in v` for the fill loop (`none` = `TypeError`):
key membership on dicts, element membership on lists, substring test
on strings, and a `TypeError` on every other shape. -/
def pyContains (v : Value) (k : String) : Option Bool :=
  match v with
  | .dict d => some (dmem d k)
  | .list xs => some (xs.contains (.str k))
  | .str s => some (hasInfix k.data s.data)
  | _ => none

/-- The loop `for key in default_metadata: if key not in metadata:
metadata[key] = default_metadata[key]`. Assignment on a non-dict value
raises (`.raise`), as does `in` on a non-container. -/
def fillFields : Value → List String → AttemptOut
  | v, [] => .ret v
  | v, k :: ks =>
      match pyContains v k with
      | none => .raise
      | some true => fillFields v ks
      | some false =>
          match v with
          | .dict d => fillFields (.dict (dset d k (defaultVal k))) ks
          | _ => .raise

/-- The body of one attempt, after a successful completion call
returning `raw`: clean the text, `json.loads` it (the oracle `parse`;
`none` = `json.JSONDecodeError`, caught and replaced by the default
record), then run the missing-field fill loop. -/
def attemptBody (parse : List Char → Option Value) (raw : List Char) : AttemptOut :=
  let content := cleanResponseText raw
  let metadata :=
    match parse content with
    | some v => v
    | none => .dict get_default_metadata
  fillFields metadata defaultKeys

/-- The retry loop of `extract_metadata_from_pdf`
(`max_retries = 3`, `retry_delay = 2`, doubled after each sleep).
Arguments: remaining iterations, current attempt index, current delay,
sleeps performed so far. Returns the metadata value, the list of
`time.sleep` durations, and the number of attempts made. -/
def runAttempts (api : Nat → ApiResult) (parse : List Char → Option Value) :
    Nat → Nat → Nat → List Nat → Value × List Nat × Nat
  | 0, i, _, sleeps => (.dict get_default_metadata, sleeps, i)
  | r + 1, i, d, sleeps =>
      match api i with
      | .ok raw =>
          match attemptBody parse raw with
          | .ret v => (v, sleeps, i + 1)
          | .raise =>
              if r = 0 then (.dict get_default_metadata, sleeps, i + 1)
              else runAttempts api parse r (i + 1) (2 * d) (sleeps ++ [d])
      | .err =>
          if r = 0 then (.dict get_default_metadata, sleeps, i + 1)
          else runAttempts api parse r (i + 1) (2 * d) (sleeps ++ [d])

/-- `PaperProcessor.extract_metadata_from_pdf`, with the text extractor
output and the completion/parse collaborators as oracles: empty
extracted text short-circuits to the default record with no API call
(attempt count 0); otherwise the retry loop runs with 3 attempts
starting from delay 2. -/
def extract_metadata_from_pdf (extractedText : String) (api : Nat → ApiResult)
    (parse : List Char → Option Value) : Value × List Nat × Nat :=
  if extractedText = "" then (.dict get_default_metadata, [], 0)
  else runAttempts api parse 3 0 2 []

/-- The provenance attachment done by `process_directory`:
`metadata['filename'] = ...`, `metadata['relative_path'] = ...`,
`metadata['full_path'] = ...`. -/
def attachProvenance (m : Dict) (fname rel full : String) : Dict :=
  dset (dset (dset m "filename" (.str fname)) "relative_path" (.str rel)) "full_path" (.str full)

/-- The per-file record pipeline of `process_directory` after
`extract_metadata_from_pdf` returns `md`: attach provenance, then
normalize. A non-dict `md` raises a `TypeError` at the provenance
assignment, caught at the per-file boundary (`none`). -/
def processFileRecord (md : Value) (fname rel full : String) : Option Dict :=
  match md with
  | .dict m => some (normalize_metadata (attachProvenance m fname rel full))
  | _ => none

example :
    cleanResponseText "```jsona```b```".data = "ab".data := by decide
example :
    cleanResponseText "  plain text ".data = "plain text".data := by decide
example :
    extract_metadata_from_pdf "x" (fun _ => .err) (fun _ => none) =
      (.dict get_default_metadata, [2, 4], 3) := by decide
example :
    extract_metadata_from_pdf "x" (fun _ => .ok "bad".data) (fun _ => none) =
      (.dict get_default_metadata, [], 1) := by decide
example :
    extract_metadata_from_pdf "x" (fun _ => .ok "r".data)
        (fun _ => some (.dict [("title", .int 7)])) =
      (.dict [("title", .int 7), ("authors", .list [.str "unknown"]), ("year", .str "unknown"),
        ("journal", .str "unknown"), ("doi", .str "unknown"), ("keywords", .list []),
        ("abstract", .str "unknown")], [], 1) := by decide

/-! ### `PaperProcessor.process_directory`: ledger/store state machine

The orchestrator treats each produced record opaquely, so the record
type is a parameter `R`. The durable state is the contents of
`metadata.json` (the store file) and `processed_files.json` (the
ledger file, a set of relative paths modelled as a duplicate-free
insertion list). Writes are modelled as atomic. -/

/-- Where, if anywhere, an exception is raised inside the per-file
`try` block of `process_directory` for one candidate:
before `results.append` (extraction / provenance / normalization /
printing), at the store-file write (after the in-memory append), at
the ledger write (`save_processed_file`, after the store write
succeeded), or nowhere. -/
inductive FileOutcome (R : Type) where
  | excBeforeAppend
  | excAtStoreWrite (r : R)
  | excAtLedgerWrite (r : R)
  | ok (r : R)

/-- The durable state: `metadata.json` contents and
`processed_files.json` contents. -/
structure PFS (R : Type) where
  storeFile : List R
  ledgerFile : List String
deriving DecidableEq

/-- `save_processed_file`: load the ledger set, add the path,
rewrite the file (set semantics: no duplicate entries). -/
def insertPath (p : String) (l : List String) : List String :=
  if p ∈ l then l else l ++ [p]

/-- One iteration of the `for` loop of `process_directory` over
candidate `p`, given the in-memory `results` list. On `.ok`:
append to `results`, rewrite the store file, and only then add `p` to
the ledger. The `exc*` outcomes stop the iteration at the
corresponding point; the per-file `except` swallows the exception.
Note the in-memory append survives a failed store write. -/
def stepCandidate {R : Type} (fs : PFS R) (results : List R) (p : String) :
    FileOutcome R → PFS R × List R
  | .excBeforeAppend => (fs, results)
  | .excAtStoreWrite r => (fs, results ++ [r])
  | .excAtLedgerWrite r =>
      ({ fs with storeFile := results ++ [r] }, results ++ [r])
  | .ok r =>
      ({ storeFile := results ++ [r], ledgerFile := insertPath p fs.ledgerFile },
        results ++ [r])

/-- The `for` loop of `process_directory` over the remaining
candidates, with the per-candidate outcome oracle `oc`. -/
def processCandidates {R : Type} (oc : String → FileOutcome R) :
    List String → PFS R → List R → PFS R
  | [], fs, _ => fs
  | p :: ps, fs, results =>
      let s := stepCandidate fs results p (oc p)
      processCandidates oc ps s.1 s.2

/-- `PaperProcessor.process_directory`: load the ledger and the store,
filter out already-processed relative paths, return unchanged if
nothing is left, otherwise run the loop. `pdfRel` is the list of
relative paths of the PDFs found by `rglob`, in enumeration order. -/
def process_directory {R : Type} (oc : String → FileOutcome R)
    (pdfRel : List String) (fs : PFS R) : PFS R :=
  let processed := fs.ledgerFile
  let unprocessed := pdfRel.filter (fun p => !processed.contains p)
  if unprocessed.isEmpty then fs
  else processCandidates oc unprocessed fs fs.storeFile

/-! ### `PaperProcessor.reset_processing_status` -/

/-- The files touched by reset: the ledger file, the store file
(`none` = does not exist, `some c` = exists with contents `c`), and
the backup files `metadata_backup_<t>.json`, keyed by timestamp. -/
structure ResetFS where
  ledger : Option String
  store : Option String
  backups : List (Nat × String)
deriving DecidableEq

/-- `reset_processing_status` at time `now`: delete the ledger file if
present; if the store file exists, rename it (contents preserved) to
`metadata_backup_<now>.json`. -/
def reset_processing_status (now : Nat) (fs : ResetFS) : ResetFS :=
  let fs1 := { fs with ledger := none }
  match fs1.store with
  | some c => { fs1 with store := none, backups := fs1.backups ++ [(now, c)] }
  | none => fs1

example :
    processCandidates (fun _ => FileOutcome.ok 7) ["a", "b"] ⟨[], []⟩ [] =
      ({ storeFile := [7, 7], ledgerFile := ["a", "b"] } : PFS Nat) := by decide
example :
    process_directory (fun _ => FileOutcome.ok 7) ["a"] ⟨[9], ["a"]⟩ =
      ({ storeFile := [9], ledgerFile := ["a"] } : PFS Nat) := by decide
example :
    reset_processing_status 5 ⟨some "led", some "st", []⟩ =
      ⟨none, none, [(5, "st")]⟩ := by decide

/-! ### Dictionary lemmas -/

theorem dget_dset_self (d : Dict) (k : String) (v : Value) :
    dget (dset d k v) k = some v := by
  induction d with
  | nil => simp [dget, dset]
  | cons kv rest ih =>
      obtain ⟨k', v'⟩ := kv
      by_cases h : k' = k <;> simp [dget, dset, h, ih]

theorem dget_dset_ne (d : Dict) (k : String) (v : Value) (k' : String) (h : k' ≠ k) :
    dget (dset d k v) k' = dget d k' := by
  have hne : ¬ k = k' := fun hc => h hc.symm
  induction d with
  | nil => simp [dget, dset, hne]
  | cons kv rest ih =>
      obtain ⟨k0, v0⟩ := kv
      by_cases h0 : k0 = k
      · subst h0
        simp [dget, dset, hne]
      · by_cases h1 : k0 = k' <;> simp [dget, dset, h0, h1, h, ih]

theorem dmem_dset_self (d : Dict) (k : String) (v : Value) :
    dmem (dset d k v) k = true := by
  simp [dmem, dget_dset_self]

theorem dmem_dset_ne (d : Dict) (k : String) (v : Value) (k' : String) (h : k' ≠ k) :
    dmem (dset d k v) k' = dmem d k' := by
  simp [dmem, dget_dset_ne d k v k' h]

theorem dset_eq_self (d : Dict) (k : String) (v : Value) (h : dget d k = some v) :
    dset d k v = d := by
  induction d with
  | nil => simp [dget] at h
  | cons kv rest ih =>
      obtain ⟨k0, v0⟩ := kv
      by_cases h0 : k0 = k
      · subst h0
        simp [dget] at h
        simp [dset, h]
      · simp [dget, h0] at h
        simp [dset, h0, ih h]

/-! ### Claim theorems -/

/-- Claim C7: after `reset_processing_status` runs, the ledger file no
longer exists; if a store file existed with contents `c`, it no longer
exists and exactly one new backup `metadata_backup_<now>.json` holds
exactly `c` (a rename); if no store file existed, no backup is
created. -/
theorem c7_reset_behaviour (now : Nat) (fs : ResetFS) :
    (reset_processing_status now fs).ledger = none ∧
    (reset_processing_status now fs).store = none ∧
    (∀ c, fs.store = some c →
      (reset_processing_status now fs).backups = fs.backups ++ [(now, c)]) ∧
    (fs.store = none → (reset_processing_status now fs).backups = fs.backups) := by
  cases h : fs.store <;> simp [reset_processing_status, h]

/-- Witness for C7 at a concrete state with an existing store file. -/
theorem c7_reset_behaviour_witness :
    (reset_processing_status 5 ⟨some "led", some "st", []⟩).backups = [] ++ [(5, "st")] :=
  (c7_reset_behaviour 5 ⟨some "led", some "st", []⟩).2.2.1 "st" rfl

/-- Claim C3: with non-empty extracted text and a completion call that
raises on every attempt, `extract_metadata_from_pdf` makes exactly 3
attempts, sleeping 2 then 4 time-units, and returns the default
record. -/
theorem c3_retry_bound (extractedText : String) (api : Nat → ApiResult)
    (parse : List Char → Option Value)
    (htext : extractedText ≠ "") (hapi : ∀ i, api i = .err) :
    extract_metadata_from_pdf extractedText api parse =
      (.dict get_default_metadata, [2, 4], 3) := by
  have h0 := hapi 0
  have h1 := hapi 1
  have h2 := hapi 2
  simp [extract_metadata_from_pdf, htext, runAttempts, h0, h1, h2]

/-- Witness for C3. -/
theorem c3_retry_bound_witness :
    extract_metadata_from_pdf "x" (fun _ => .err) (fun _ => none) =
      (.dict get_default_metadata, [2, 4], 3) :=
  c3_retry_bound "x" (fun _ => .err) (fun _ => none) (by decide) (fun _ => rfl)

/-- The fill loop leaves the complete default record unchanged. -/
theorem fillFields_default :
    fillFields (.dict get_default_metadata) defaultKeys = .ret (.dict get_default_metadata) := by
  decide

/-- Claim C5: a response whose cleaned text fails JSON parsing makes the
attempt return the default record immediately: at any state of the
retry loop, the loop returns on that same attempt with no new sleep,
and in particular a first-attempt parse failure gives the default
record with no sleeps and one attempt. -/
theorem c5_parse_error_no_retry (api : Nat → ApiResult) (parse : List Char → Option Value)
    (raw : List Char) (hparse : parse (cleanResponseText raw) = none) :
    (∀ r i d sleeps, api i = .ok raw →
      runAttempts api parse (r + 1) i d sleeps = (.dict get_default_metadata, sleeps, i + 1)) ∧
    (∀ extractedText : String, extractedText ≠ "" → api 0 = .ok raw →
      extract_metadata_from_pdf extractedText api parse =
        (.dict get_default_metadata, [], 1)) := by
  have hbody : attemptBody parse raw = .ret (.dict get_default_metadata) := by
    simp [attemptBody, hparse, fillFields_default]
  constructor
  · intro r i d sleeps hapi
    simp [runAttempts, hapi, hbody]
  · intro extractedText htext hapi
    simp [extract_metadata_from_pdf, htext]
    have h3 : (3 : Nat) = 2 + 1 := rfl
    rw [h3]
    simp [runAttempts, hapi, hbody]

/-- Witness for C5. -/
theorem c5_parse_error_no_retry_witness :
    runAttempts (fun _ => .ok "bad".data) (fun _ => none) (1 + 1) 5 16 [2, 4] =
        (.dict get_default_metadata, [2, 4], 5 + 1) ∧
    extract_metadata_from_pdf "x" (fun _ => .ok "bad".data) (fun _ => none) =
        (.dict get_default_metadata, [], 1) :=
  ⟨(c5_parse_error_no_retry (fun _ => .ok "bad".data) (fun _ => none) "bad".data rfl).1
      1 5 16 [2, 4] rfl,
    (c5_parse_error_no_retry (fun _ => .ok "bad".data) (fun _ => none) "bad".data rfl).2
      "x" (by decide) rfl⟩

/-- Claim C6: empty extracted text short-circuits: no completion call is
made (0 attempts, no sleeps) and the default record is returned; the
record the orchestrator then builds for the file is exactly the default
record plus the three provenance fields. -/
theorem c6_default_on_empty_extraction (api : Nat → ApiResult)
    (parse : List Char → Option Value) (fname rel full : String) :
    extract_metadata_from_pdf "" api parse = (.dict get_default_metadata, [], 0) ∧
    processFileRecord (.dict get_default_metadata) fname rel full =
      some (get_default_metadata ++
        [("filename", .str fname), ("relative_path", .str rel), ("full_path", .str full)]) := by
  exact ⟨rfl, rfl⟩

/-! ### Orchestrator lemmas -/

theorem mem_insertPath (p q : String) (l : List String) :
    p ∈ insertPath q l ↔ p ∈ l ∨ p = q := by
  by_cases h : q ∈ l
  · simp only [insertPath, if_pos h]
    constructor
    · exact Or.inl
    · rintro (hp | rfl)
      · exact hp
      · exact h
  · simp [insertPath, if_neg h]

theorem mem_insertPath_self (q : String) (l : List String) : q ∈ insertPath q l :=
  (mem_insertPath q q l).2 (Or.inr rfl)

/-- A record that is both in the in-memory `results` list and in the
store file stays in the store file: every later store write rewrites
the full (grown) `results`. -/
theorem store_persist {R : Type} (oc : String → FileOutcome R) (ps : List String)
    (fs : PFS R) (results : List R) (r : R)
    (h1 : r ∈ results) (h2 : r ∈ fs.storeFile) :
    r ∈ (processCandidates oc ps fs results).storeFile := by
  induction ps generalizing fs results with
  | nil => exact h2
  | cons p ps ih =>
      simp only [processCandidates]
      cases h : oc p with
      | excBeforeAppend => exact ih fs results h1 h2
      | excAtStoreWrite r' =>
          exact ih fs (results ++ [r']) (List.mem_append_left _ h1) h2
      | excAtLedgerWrite r' =>
          exact ih _ (results ++ [r']) (List.mem_append_left _ h1)
            (List.mem_append_left _ h1)
      | ok r' =>
          exact ih _ (results ++ [r']) (List.mem_append_left _ h1)
            (List.mem_append_left _ h1)

/-- The ledger file only grows during the loop. -/
theorem ledger_mono {R : Type} (oc : String → FileOutcome R) (ps : List String)
    (fs : PFS R) (results : List R) (q : String) (h : q ∈ fs.ledgerFile) :
    q ∈ (processCandidates oc ps fs results).ledgerFile := by
  induction ps generalizing fs results with
  | nil => exact h
  | cons p ps ih =>
      simp only [processCandidates]
      cases hoc : oc p with
      | excBeforeAppend => exact ih fs results h
      | excAtStoreWrite r' => exact ih fs (results ++ [r']) h
      | excAtLedgerWrite r' => exact ih _ (results ++ [r']) h
      | ok r' =>
          exact ih _ (results ++ [r']) ((mem_insertPath q p fs.ledgerFile).2 (Or.inl h))

/-- When every candidate's outcome is a success, every candidate ends
up in the ledger file. -/
theorem allok_mem {R : Type} (oc : String → FileOutcome R) (ps : List String)
    (fs : PFS R) (results : List R)
    (hok : ∀ p ∈ ps, ∃ r, oc p = FileOutcome.ok r) :
    ∀ p ∈ ps, p ∈ (processCandidates oc ps fs results).ledgerFile := by
  induction ps generalizing fs results with
  | nil => intro p hp; cases hp
  | cons q ps ih =>
      intro p hp
      obtain ⟨r, hr⟩ := hok q (List.mem_cons_self q ps)
      simp only [processCandidates, hr, stepCandidate]
      rcases List.mem_cons.1 hp with rfl | hp'
      · exact ledger_mono oc ps _ _ p (mem_insertPath_self p fs.ledgerFile)
      · exact ih _ _ (fun x hx => hok x (List.mem_cons_of_mem q hx)) p hp'

/-- Claim C1: write-then-mark ordering. A path in the final ledger file
was either there initially or its candidate succeeded and the record
produced for it is in the final store file (the store write happened in
the same iteration, before the ledger write). Moreover, an exception
raised at the ledger write leaves the store updated but the ledger
unchanged — the store write strictly precedes the ledger mark — and a
candidate failing anywhere is never added to the ledger. -/
theorem c1_write_then_mark {R : Type} (oc : String → FileOutcome R) (ps : List String)
    (fs : PFS R) (results : List R) (p : String)
    (hp : p ∈ (processCandidates oc ps fs results).ledgerFile) :
    (p ∈ fs.ledgerFile ∨
      ∃ r, oc p = FileOutcome.ok r ∧ r ∈ (processCandidates oc ps fs results).storeFile) ∧
    (∀ r : R, stepCandidate fs results p (.excAtLedgerWrite r) =
      ({ storeFile := results ++ [r], ledgerFile := fs.ledgerFile }, results ++ [r])) := by
  refine ⟨?_, fun r => rfl⟩
  induction ps generalizing fs results with
  | nil => exact Or.inl hp
  | cons q ps ih =>
      simp only [processCandidates] at hp ⊢
      cases hoc : oc q with
      | excBeforeAppend =>
          simp only [hoc, stepCandidate] at hp ⊢
          exact ih fs results hp
      | excAtStoreWrite r' =>
          simp only [hoc, stepCandidate] at hp ⊢
          exact ih fs (results ++ [r']) hp
      | excAtLedgerWrite r' =>
          simp only [hoc, stepCandidate] at hp ⊢
          exact ih _ (results ++ [r']) hp
      | ok r' =>
          simp only [hoc, stepCandidate] at hp ⊢
          rcases ih _ (results ++ [r']) hp with hin | hsucc
          · rcases (mem_insertPath p q fs.ledgerFile).1 hin with hl | rfl
            · exact Or.inl hl
            · refine Or.inr ⟨r', hoc, ?_⟩
              exact store_persist oc ps _ (results ++ [r']) r'
                (List.mem_append_right _ (List.mem_singleton.2 rfl))
                (List.mem_append_right _ (List.mem_singleton.2 rfl))
          · exact Or.inr hsucc

/-- Witness for C1: one candidate, successful outcome. -/
theorem c1_write_then_mark_witness :
    (("a" : String) ∈ ({ storeFile := [], ledgerFile := [] } : PFS Nat).ledgerFile ∨
      ∃ r, (fun _ => FileOutcome.ok 7) "a" = FileOutcome.ok r ∧
        r ∈ (processCandidates (fun _ => FileOutcome.ok 7) ["a"]
              ({ storeFile := [], ledgerFile := [] } : PFS Nat) []).storeFile) ∧
    (∀ r : Nat, stepCandidate ({ storeFile := [], ledgerFile := [] } : PFS Nat) [] "a"
        (.excAtLedgerWrite r) =
      ({ storeFile := [] ++ [r], ledgerFile := [] }, [] ++ [r])) :=
  c1_write_then_mark (fun _ => FileOutcome.ok 7) ["a"] ⟨[], []⟩ [] "a" (by decide)

/-- Claim C2: idempotence of the orchestrator. If every PDF's relative
path is already in the ledger, `process_directory` returns the state
unchanged (no store write, no ledger write, nothing processed); in
particular a second run with the same all-successful outcomes is a
no-op. -/
theorem c2_idempotent {R : Type} (oc : String → FileOutcome R) (pdfRel : List String)
    (fs : PFS R) :
    ((∀ p ∈ pdfRel, p ∈ fs.ledgerFile) → process_directory oc pdfRel fs = fs) ∧
    ((∀ p, ∃ r, oc p = FileOutcome.ok r) →
      process_directory oc pdfRel (process_directory oc pdfRel fs) =
        process_directory oc pdfRel fs) := by
  have hpd : ∀ gs : PFS R, process_directory oc pdfRel gs =
      if (pdfRel.filter (fun p => !gs.ledgerFile.contains p)).isEmpty then gs
      else processCandidates oc (pdfRel.filter (fun p => !gs.ledgerFile.contains p))
        gs gs.storeFile := fun _ => rfl
  have hrun : ∀ gs : PFS R, (∀ p ∈ pdfRel, p ∈ gs.ledgerFile) →
      process_directory oc pdfRel gs = gs := by
    intro gs hall
    have hfilter : pdfRel.filter (fun p => !gs.ledgerFile.contains p) = [] := by
      refine List.filter_eq_nil_iff.2 ?_
      intro p hp
      simp [hall p hp]
    rw [hpd gs, hfilter]
    simp
  refine ⟨hrun fs, ?_⟩
  intro hok
  refine hrun (process_directory oc pdfRel fs) ?_
  intro p hp
  rw [hpd fs]
  by_cases hemp : (pdfRel.filter (fun q => !fs.ledgerFile.contains q)).isEmpty
  · rw [if_pos hemp]
    by_cases hmem : p ∈ fs.ledgerFile
    · exact hmem
    · exfalso
      have hnil := List.isEmpty_iff.1 hemp
      have hpin : p ∈ pdfRel.filter (fun q => !fs.ledgerFile.contains q) :=
        List.mem_filter.2 ⟨hp, by simp [hmem]⟩
      rw [hnil] at hpin
      cases hpin
  · rw [if_neg hemp]
    by_cases hmem : p ∈ fs.ledgerFile
    · exact ledger_mono oc _ fs fs.storeFile p hmem
    · exact allok_mem oc _ fs fs.storeFile (fun x _ => hok x) p
        (List.mem_filter.2 ⟨hp, by simp [hmem]⟩)

/-- Witness for C2: both conjuncts at a concrete input. -/
theorem c2_idempotent_witness :
    process_directory (fun _ => FileOutcome.ok 7) ["a"]
        ({ storeFile := [], ledgerFile := ["a"] } : PFS Nat) =
      { storeFile := [], ledgerFile := ["a"] } ∧
    process_directory (fun _ => FileOutcome.ok 7) ["a", "b"]
        (process_directory (fun _ => FileOutcome.ok 7) ["a", "b"] (⟨[], []⟩ : PFS Nat)) =
      process_directory (fun _ => FileOutcome.ok 7) ["a", "b"] (⟨[], []⟩ : PFS Nat) :=
  ⟨(c2_idempotent (fun _ => FileOutcome.ok 7) ["a"] ⟨[], ["a"]⟩).1 (by decide),
    (c2_idempotent (fun _ => FileOutcome.ok 7) ["a", "b"] ⟨[], []⟩).2 (fun _ => ⟨7, rfl⟩)⟩

/-! ### The missing-field fill loop on dicts -/

/-- The fill loop restricted to dict-shaped metadata, as a total
function. -/
def fillMissing (d : Dict) : List String → Dict
  | [] => d
  | k :: ks =>
      if dmem d k then fillMissing d ks else fillMissing (dset d k (defaultVal k)) ks

theorem fillFields_dict (d : Dict) (ks : List String) :
    fillFields (.dict d) ks = .ret (.dict (fillMissing d ks)) := by
  induction ks generalizing d with
  | nil => rfl
  | cons k ks ih =>
      by_cases h : dmem d k <;>
        simp [fillFields, fillMissing, pyContains, h, ih]

theorem fillMissing_present (ks : List String) (d : Dict) (k : String)
    (h : dmem d k = true) : dget (fillMissing d ks) k = dget d k := by
  induction ks generalizing d with
  | nil => rfl
  | cons k0 ks ih =>
      by_cases h0 : dmem d k0
      · simp only [fillMissing, if_pos h0]
        exact ih d h
      · have hne : k ≠ k0 := fun hc => h0 (hc ▸ h)
        simp only [fillMissing, if_neg h0]
        rw [ih _ (by rw [dmem_dset_ne d k0 (defaultVal k0) k hne]; exact h)]
        exact dget_dset_ne d k0 (defaultVal k0) k hne

theorem fillMissing_absent (ks : List String) (d : Dict) (k : String)
    (hk : k ∈ ks) (h : dmem d k = false) :
    dget (fillMissing d ks) k = some (defaultVal k) := by
  induction ks generalizing d with
  | nil => cases hk
  | cons k0 ks ih =>
      by_cases hkk : k = k0
      · subst hkk
        simp only [fillMissing]
        rw [if_neg (show ¬ dmem d k = true by simp [h])]
        rw [fillMissing_present ks _ k (dmem_dset_self d k (defaultVal k))]
        exact dget_dset_self d k (defaultVal k)
      · rcases List.mem_cons.1 hk with rfl | hk'
        · exact absurd rfl hkk
        · by_cases h0 : dmem d k0
          · simp only [fillMissing, if_pos h0]
            exact ih d hk' h
          · simp only [fillMissing, if_neg h0]
            refine ih _ hk' ?_
            rw [dmem_dset_ne d k0 (defaultVal k0) k hkk]
            exact h

/-- Claim C8: for a successfully parsed JSON object response, the fill
step returns a dict in which every one of the seven target fields that
was absent now holds its default value, and every field that was
present (whatever its value's type) is unchanged. -/
theorem c8_missing_field_fill (parse : List Char → Option Value) (raw : List Char)
    (d : Dict) (hparse : parse (cleanResponseText raw) = some (.dict d)) :
    ∃ d', attemptBody parse raw = .ret (.dict d') ∧
      (∀ k ∈ defaultKeys, dmem d k = false → dget d' k = some (defaultVal k)) ∧
      (∀ k, dmem d k = true → dget d' k = dget d k) := by
  refine ⟨fillMissing d defaultKeys, ?_, ?_, ?_⟩
  · simp [attemptBody, hparse, fillFields_dict]
  · intro k hk hmem
    exact fillMissing_absent defaultKeys d k hk hmem
  · intro k hmem
    exact fillMissing_present defaultKeys d k hmem

/-- Witness for C8: a parsed object with a wrongly-typed present field
and six absent fields. -/
theorem c8_missing_field_fill_witness :
    ∃ d', attemptBody (fun _ => some (.dict [("title", .int 7)])) "r".data = .ret (.dict d') ∧
      (∀ k ∈ defaultKeys, dmem [("title", Value.int 7)] k = false →
        dget d' k = some (defaultVal k)) ∧
      (∀ k, dmem [("title", Value.int 7)] k = true →
        dget d' k = dget [("title", Value.int 7)] k) :=
  c8_missing_field_fill (fun _ => some (.dict [("title", .int 7)])) "r".data
    [("title", .int 7)] rfl

/-- Counterexample for C4: the claim predicts
`normalize({"authors": "Doe, J.; Smith, A."}) = ["Doe, J.", "Smith, A."]`,
but the code splits on commas as well as semicolons, yielding the four
pieces `["Doe", "J.", "Smith", "A."]`. -/
theorem c4_authors_split_counterexample :
    normalize_metadata [("authors", .str "Doe, J.; Smith, A.")] =
        [("authors", .list [.str "Doe", .str "J.", .str "Smith", .str "A."])] ∧
    normalize_metadata [("authors", .str "Doe, J.; Smith, A.")] ≠
        [("authors", .list [.str "Doe, J.", .str "Smith, A."])] := by
  decide

/-- Claim C4 (amended): an authors string containing a comma or
semicolon is split on both separators (semicolons first normalized to
commas), each piece trimmed and empty pieces dropped — so
`"Doe, J.; Smith, A."` yields the four pieces
`["Doe", "J.", "Smith", "A."]`, not `["Doe, J.", "Smith, A."]` — while
a separator-free non-empty string becomes a one-element list and an
empty string becomes `["unknown"]`. -/
theorem c4_authors_split_amended :
    (normalize_metadata [("authors", .str "Doe, J.; Smith, A.")] =
      [("authors", .list [.str "Doe", .str "J.", .str "Smith", .str "A."])]) ∧
    (∀ s : String, s ≠ "" → hasSep s = false →
      normalize_metadata [("authors", .str s)] = [("authors", .list [.str s])]) ∧
    (normalize_metadata [("authors", .str "")] = [("authors", .list [.str "unknown"])]) := by
  refine ⟨by decide, ?_, by decide⟩
  intro s hne hsep
  have hd : s.data.isEmpty = false := by
    cases s with
    | mk data =>
        cases data with
        | nil => exact absurd rfl hne
        | cons c cs => rfl
  simp [normalize_metadata, normalizeAuthorsStep, normalizeKeywordsStep, dmem, dget, pyGet,
    normalizeAuthorsVal, hsep, hd, dset]

/-- Witness for the amended C4 at a separator-free string. -/
theorem c4_authors_split_amended_witness :
    normalize_metadata [("authors", .str "X")] = [("authors", .list [.str "X"])] :=
  c4_authors_split_amended.2.1 "X" (by decide) (by decide)

/-! ### Lemmas about `replaceAllFuel` and `pyStrip` -/

theorem ra_nil (pat rep : List Char) (f : Nat) : replaceAllFuel pat rep f [] = [] := by
  cases f <;> rfl

theorem isPrefixOf_append_self (l t : List Char) : l.isPrefixOf (l ++ t) = true := by
  induction l with
  | nil => simp [List.isPrefixOf]
  | cons c l ih => simp [List.isPrefixOf, ih]

/-- Unfolding one pattern match at the head of the scanned text. -/
theorem ra_head_match (pat rep s : List Char) (f : Nat) (hp : pat ≠ []) :
    replaceAllFuel pat rep (f + 1) (pat ++ s) = rep ++ replaceAllFuel pat rep f s := by
  cases pat with
  | nil => exact absurd rfl hp
  | cons c pt =>
      show replaceAllFuel (c :: pt) rep (f + 1) (c :: (pt ++ s)) = _
      simp only [replaceAllFuel]
      rw [if_pos (show (c :: pt).isPrefixOf (c :: (pt ++ s)) = true from
        isPrefixOf_append_self (c :: pt) s)]
      congr 1
      have : (c :: (pt ++ s)) = (c :: pt) ++ s := rfl
      rw [this, List.drop_left]

/-- Scanning past characters that cannot start a match: if the
pattern's first character does not occur in `body`, the scan copies
`body` unchanged and proceeds to `tail` with the leftover fuel. -/
theorem ra_skip_free (pat rep : List Char) (c0 : Char) (hpat : pat.head? = some c0)
    (body : List Char) (hb : c0 ∉ body) (f : Nat) (tail : List Char) :
    replaceAllFuel pat rep (f + body.length) (body ++ tail) =
      body ++ replaceAllFuel pat rep f tail := by
  induction body with
  | nil => rfl
  | cons c body ih =>
      have hne : c0 ≠ c := fun hc => hb (hc ▸ List.mem_cons_self c body)
      obtain ⟨pt, rfl⟩ : ∃ pt, pat = c0 :: pt := by
        cases pat with
        | nil => cases hpat
        | cons a pt =>
            injection hpat with h
            exact ⟨pt, by rw [h]⟩
      show replaceAllFuel (c0 :: pt) rep ((f + body.length) + 1) (c :: (body ++ tail)) = _
      simp only [replaceAllFuel]
      rw [if_neg (by simp [List.isPrefixOf, hne])]
      rw [ih (fun hc => hb (List.mem_cons_of_mem c hc))]
      simp

/-- A pattern longer than the text never matches. -/
theorem ra_no_match_short (pat rep : List Char) :
    ∀ s : List Char, s.length < pat.length → ∀ f, replaceAllFuel pat rep f s = s := by
  intro s
  induction s with
  | nil => intro _ f; exact ra_nil pat rep f
  | cons c rest ih =>
      intro hlen f
      cases f with
      | zero => rfl
      | succ f =>
          simp only [replaceAllFuel]
          rw [if_neg ?hno]
          case hno =>
            intro hpre
            have hle := (List.isPrefixOf_iff_prefix.1 hpre).length_le
            omega
          rw [ih (by simp at hlen ⊢; omega) f]

theorem ra_fence_fence (f : Nat) : replaceAllFuel fence [] (f + 1) fence = [] := by
  have h := ra_head_match fence [] [] f (by decide)
  simpa [ra_nil] using h

theorem pyStrip_of_ends (s : List Char)
    (h1 : ∀ c, s.head? = some c → isPySpace c = false)
    (h2 : ∀ c, s.getLast? = some c → isPySpace c = false) : pyStrip s = s := by
  cases s with
  | nil => rfl
  | cons c rest =>
      have hc : isPySpace c = false := h1 c rfl
      unfold pyStrip
      rw [List.dropWhile_cons, hc]
      rw [if_neg (show ¬(false = true) by simp)]
      cases hrev : (c :: rest).reverse with
      | nil => simp at hrev
      | cons d t =>
          have hd : (c :: rest).getLast? = some d := by
            rw [List.getLast?_eq_head?_reverse, hrev]
            rfl
          have hds : isPySpace d = false := h2 d hd
          rw [List.dropWhile_cons]
          rw [hds]
          rw [if_neg (show ¬(false = true) by simp)]
          rw [← hrev, List.reverse_reverse]

/-- `cleanResponseText` with the `let` inlined. -/
theorem cleanResponseText_eq (raw : List Char) :
    cleanResponseText raw =
      if fenceJson.isPrefixOf (pyStrip raw) then
        pyStrip (replaceAll fence [] (replaceAll fenceJson [] (pyStrip raw)))
      else if fence.isPrefixOf (pyStrip raw) then
        pyStrip (replaceAll fence [] (pyStrip raw))
      else pyStrip raw := rfl

/-- Counterexample for C9: for the fenced response
`"```jsona```b```"` the claim predicts the enclosed text `"a```b"`
unchanged, but the code removes every backtick fence occurrence,
producing `"ab"`. -/
theorem c9_fence_strip_counterexample :
    cleanResponseText "```jsona```b```".data = "ab".data ∧
    cleanResponseText "```jsona```b```".data ≠ "a```b".data := by
  decide

/-- Claim C9 (amended): the cleanup removes every occurrence of the
fence markers, not only a leading/trailing pair. Consequently, for a
fenced response whose body contains no backtick the result is exactly
the trimmed body (for both the `"```json"` fence and, when the text
does not start with the json fence, the plain fence), and a response
that starts with no fence is passed through with only whitespace
trimming. -/
theorem c9_fence_strip_amended :
    (∀ body : List Char, '`' ∉ body →
      cleanResponseText (fenceJson ++ body ++ fence) = pyStrip body) ∧
    (∀ body : List Char, '`' ∉ body →
      fenceJson.isPrefixOf (fence ++ body ++ fence) = false →
      cleanResponseText (fence ++ body ++ fence) = pyStrip body) ∧
    (∀ raw : List Char, fenceJson.isPrefixOf (pyStrip raw) = false →
      fence.isPrefixOf (pyStrip raw) = false → cleanResponseText raw = pyStrip raw) := by
  have hfence_ne : fence ≠ [] := by decide
  refine ⟨?_, ?_, ?_⟩
  · intro body hb
    have hne2 : body ++ fence ≠ [] := by
      intro hc
      have hlenc := congrArg List.length hc
      have l2 : fence.length = 3 := rfl
      simp [List.length_append, l2] at hlenc
    have hhead : (fenceJson ++ (body ++ fence)).head? = some '`' := rfl
    have hlast : (fenceJson ++ (body ++ fence)).getLast? = some '`' := by
      rw [List.getLast?_append_of_ne_nil _ hne2, List.getLast?_append_of_ne_nil _ hfence_ne]
      decide
    have hstrip : pyStrip (fenceJson ++ (body ++ fence)) = fenceJson ++ (body ++ fence) := by
      apply pyStrip_of_ends
      · intro c hc
        rw [hhead] at hc
        injection hc with h
        rw [← h]
        decide
      · intro c hc
        rw [hlast] at hc
        injection hc with h
        rw [← h]
        decide
    have e1 : replaceAll fenceJson [] (fenceJson ++ (body ++ fence)) = body ++ fence := by
      rw [replaceAll]
      have l1 : fenceJson.length = 7 := rfl
      have l2 : fence.length = 3 := rfl
      have hlen : (fenceJson ++ (body ++ fence)).length = (9 + body.length) + 1 := by
        simp [List.length_append, l1, l2]
        omega
      rw [hlen, ra_head_match fenceJson [] (body ++ fence) (9 + body.length) (by decide)]
      rw [List.nil_append, ra_skip_free fenceJson [] '`' rfl body hb 9 fence]
      rw [ra_no_match_short fenceJson [] fence (by decide) 9]
    have e2 : replaceAll fence [] (body ++ fence) = body := by
      rw [replaceAll]
      have l2 : fence.length = 3 := rfl
      have hlen : (body ++ fence).length = 3 + body.length := by
        simp [List.length_append, l2]
        omega
      rw [hlen, ra_skip_free fence [] '`' rfl body hb 3 fence]
      rw [show (3 : Nat) = 2 + 1 from rfl, ra_fence_fence 2]
      simp
    rw [show fenceJson ++ body ++ fence = fenceJson ++ (body ++ fence) from List.append_assoc ..]
    rw [cleanResponseText_eq, hstrip, if_pos (isPrefixOf_append_self fenceJson (body ++ fence))]
    rw [e1, e2]
  · intro body hb hjson
    have hhead : (fence ++ (body ++ fence)).head? = some '`' := rfl
    have hne2 : body ++ fence ≠ [] := by
      intro hc
      have hlenc := congrArg List.length hc
      have l2 : fence.length = 3 := rfl
      simp [List.length_append, l2] at hlenc
    have hlast : (fence ++ (body ++ fence)).getLast? = some '`' := by
      rw [List.getLast?_append_of_ne_nil _ hne2, List.getLast?_append_of_ne_nil _ hfence_ne]
      decide
    have hstrip : pyStrip (fence ++ (body ++ fence)) = fence ++ (body ++ fence) := by
      apply pyStrip_of_ends
      · intro c hc
        rw [hhead] at hc
        injection hc with h
        rw [← h]
        decide
      · intro c hc
        rw [hlast] at hc
        injection hc with h
        rw [← h]
        decide
    have e2 : replaceAll fence [] (fence ++ (body ++ fence)) = body := by
      rw [replaceAll]
      have l2 : fence.length = 3 := rfl
      have hlen : (fence ++ (body ++ fence)).length = (5 + body.length) + 1 := by
        simp [List.length_append, l2]
        omega
      rw [hlen, ra_head_match fence [] (body ++ fence) (5 + body.length) (by decide)]
      rw [List.nil_append, ra_skip_free fence [] '`' rfl body hb 5 fence]
      rw [show (5 : Nat) = 4 + 1 from rfl, ra_fence_fence 4]
      simp
    rw [List.append_assoc] at hjson
    rw [show fence ++ body ++ fence = fence ++ (body ++ fence) from List.append_assoc ..]
    rw [cleanResponseText_eq, hstrip, hjson]
    rw [if_neg (show ¬(false = true) by simp)]
    rw [if_pos (isPrefixOf_append_self fence (body ++ fence))]
    rw [e2]
  · intro raw h1 h2
    rw [cleanResponseText_eq, h1, h2]
    rw [if_neg (show ¬(false = true) by simp)]
    rw [if_neg (show ¬(false = true) by simp)]

/-- Witness for the amended C9: a json-fenced body, a plain-fenced
body, and an unfenced response. -/
theorem c9_fence_strip_amended_witness :
    cleanResponseText (fenceJson ++ " ok ".data ++ fence) = pyStrip " ok ".data ∧
    cleanResponseText (fence ++ "xy".data ++ fence) = pyStrip "xy".data ∧
    cleanResponseText " raw ".data = pyStrip " raw ".data :=
  ⟨c9_fence_strip_amended.1 " ok ".data (by decide),
    c9_fence_strip_amended.2.1 "xy".data (by decide) (by decide),
    c9_fence_strip_amended.2.2 " raw ".data (by decide) (by decide)⟩

/-! ### Idempotence analysis of `normalize_metadata` -/

/-- The authors values on which one normalization pass reaches a fixed
point: list values must contain no dict-shaped entries (a dict entry's
derived name can itself need further normalization), and a
separator-containing string must split into at least one non-empty
piece (otherwise the first pass yields `[]` and the second
`["unknown"]`). -/
def authorsSafe : Value → Bool
  | .list xs => xs.all fun a => match a with | .dict _ => false | _ => true
  | .str s => !hasSep s || !(sepSplitPieces s).isEmpty
  | _ => true

/-- A record is normalization-idempotence-safe when its authors value
(if present) is `authorsSafe`; keywords need no restriction. -/
def idemSafe (m : Dict) : Bool :=
  match dget m "authors" with
  | some v => authorsSafe v
  | none => true

theorem map_str_id (l : List Value) (h : ∀ a ∈ l, ∃ t, a = .str t) :
    l.map (fun k => .str (pyStr k)) = l := by
  induction l with
  | nil => rfl
  | cons a l ih =>
      obtain ⟨t, rfl⟩ := h a (List.mem_cons_self a l)
      rw [List.map_cons, ih (fun x hx => h x (List.mem_cons_of_mem _ hx))]
      rfl

theorem authorStrings_nodict (xs : List Value) (h : ∀ a ∈ xs, ∀ d, a ≠ .dict d) :
    authorStrings xs = xs.map (fun a => .str (pyStr a)) := by
  induction xs with
  | nil => rfl
  | cons a xs ih =>
      cases a <;>
        first
        | exact absurd rfl (h _ (List.mem_cons_self _ _) _)
        | (simp only [authorStrings, List.map_cons]
           rw [ih (fun x hx => h x (List.mem_cons_of_mem _ hx))])

theorem authorStrings_strs (l : List Value) (h : ∀ a ∈ l, ∃ t, a = .str t) :
    authorStrings l = l := by
  rw [authorStrings_nodict l
    (fun a ha d hc => by obtain ⟨t, rfl⟩ := h a ha; exact Value.noConfusion hc)]
  exact map_str_id l h

theorem normalizeKeywordsVal_shape (v : Value) :
    ∃ l, normalizeKeywordsVal v = .list l ∧ ∀ a ∈ l, ∃ t, a = .str t := by
  cases v with
  | list xs =>
      refine ⟨xs.map (fun k => .str (pyStr k)), rfl, ?_⟩
      intro a ha
      obtain ⟨b, _, rfl⟩ := List.mem_map.1 ha
      exact ⟨_, rfl⟩
  | str s =>
      by_cases hs : hasSep s = true
      · refine ⟨(sepSplit s).map .str, by simp [normalizeKeywordsVal, hs], ?_⟩
        intro a ha
        obtain ⟨t, _, rfl⟩ := List.mem_map.1 ha
        exact ⟨t, rfl⟩
      · by_cases he : s.data.isEmpty = true
        · refine ⟨[], by simp [normalizeKeywordsVal, hs, he], ?_⟩
          intro a ha
          cases ha
        · refine ⟨[.str s], by simp [normalizeKeywordsVal, hs, he], ?_⟩
          intro a ha
          rcases List.mem_singleton.1 ha with rfl
          exact ⟨s, rfl⟩
  | int n => exact ⟨[], rfl, fun a ha => absurd ha (by simp)⟩
  | bool b => exact ⟨[], rfl, fun a ha => absurd ha (by simp)⟩
  | null => exact ⟨[], rfl, fun a ha => absurd ha (by simp)⟩
  | dict d => exact ⟨[], rfl, fun a ha => absurd ha (by simp)⟩

theorem normalizeKeywordsVal_idem (v : Value) :
    normalizeKeywordsVal (normalizeKeywordsVal v) = normalizeKeywordsVal v := by
  obtain ⟨l, hl, hstr⟩ := normalizeKeywordsVal_shape v
  rw [hl]
  rw [show normalizeKeywordsVal (.list l) = .list (l.map fun k => .str (pyStr k)) from rfl]
  rw [map_str_id l hstr]

theorem normalizeAuthorsVal_shape (v : Value) (hv : authorsSafe v = true) :
    ∃ l, normalizeAuthorsVal v = .list l ∧ l ≠ [] ∧ ∀ a ∈ l, ∃ t, a = .str t := by
  cases v with
  | list xs =>
      have hnod : ∀ a ∈ xs, ∀ d, a ≠ .dict d := by
        intro a ha d hc
        subst hc
        have := List.all_eq_true.1 hv _ ha
        simp at this
      rw [show normalizeAuthorsVal (.list xs) =
        .list (if (authorStrings xs).isEmpty then [.str "unknown"] else authorStrings xs)
        from rfl]
      by_cases he : (authorStrings xs).isEmpty = true
      · refine ⟨[.str "unknown"], by rw [if_pos he], by simp, ?_⟩
        intro a ha
        rcases List.mem_singleton.1 ha with rfl
        exact ⟨_, rfl⟩
      · refine ⟨authorStrings xs, by rw [if_neg (by simp [he])], ?_, ?_⟩
        · intro hc
          rw [hc] at he
          exact he rfl
        · rw [authorStrings_nodict xs hnod]
          intro a ha
          obtain ⟨b, _, rfl⟩ := List.mem_map.1 ha
          exact ⟨_, rfl⟩
  | str s =>
      by_cases hs : hasSep s = true
      · have hp : (sepSplitPieces s).isEmpty = false := by
          simp [authorsSafe, hs] at hv
          simp [hv]
        refine ⟨(sepSplit s).map .str, by simp [normalizeAuthorsVal, hs], ?_, ?_⟩
        · intro hc
          have : sepSplitPieces s = [] := by
            have := congrArg List.length hc
            simp [sepSplit] at this
            exact List.eq_nil_of_length_eq_zero (by simp [this])
          rw [this] at hp
          cases hp
        · intro a ha
          obtain ⟨t, _, rfl⟩ := List.mem_map.1 ha
          exact ⟨t, rfl⟩
      · by_cases he : s.data.isEmpty = true
        · refine ⟨[.str "unknown"], by simp [normalizeAuthorsVal, hs, he], by simp, ?_⟩
          intro a ha
          rcases List.mem_singleton.1 ha with rfl
          exact ⟨_, rfl⟩
        · refine ⟨[.str s], by simp [normalizeAuthorsVal, hs, he], by simp, ?_⟩
          intro a ha
          rcases List.mem_singleton.1 ha with rfl
          exact ⟨s, rfl⟩
  | int n =>
      exact ⟨[.str "unknown"], rfl, by simp, fun a ha => by
        rcases List.mem_singleton.1 ha with rfl; exact ⟨_, rfl⟩⟩
  | bool b =>
      exact ⟨[.str "unknown"], rfl, by simp, fun a ha => by
        rcases List.mem_singleton.1 ha with rfl; exact ⟨_, rfl⟩⟩
  | null =>
      exact ⟨[.str "unknown"], rfl, by simp, fun a ha => by
        rcases List.mem_singleton.1 ha with rfl; exact ⟨_, rfl⟩⟩
  | dict d =>
      exact ⟨[.str "unknown"], rfl, by simp, fun a ha => by
        rcases List.mem_singleton.1 ha with rfl; exact ⟨_, rfl⟩⟩

theorem normalizeAuthorsVal_fixed (l : List Value) (hne : l ≠ [])
    (hstr : ∀ a ∈ l, ∃ t, a = .str t) : normalizeAuthorsVal (.list l) = .list l := by
  rw [show normalizeAuthorsVal (.list l) =
    .list (if (authorStrings l).isEmpty then [.str "unknown"] else authorStrings l) from rfl]
  rw [authorStrings_strs l hstr]
  rw [if_neg (by simp [hne])]

theorem dget_keywordsStep_authors (m : Dict) :
    dget (normalizeKeywordsStep m) "authors" = dget m "authors" := by
  unfold normalizeKeywordsStep
  split
  · exact dget_dset_ne m "keywords" _ "authors" (by decide)
  · rfl

theorem authorsStep_of_get (m : Dict) (v : Value) (hget : dget m "authors" = some v) :
    normalizeAuthorsStep m = dset m "authors" (normalizeAuthorsVal v) := by
  unfold normalizeAuthorsStep
  rw [if_pos (by simp [dmem, hget])]
  rw [show pyGet m "authors" .null = v by simp [pyGet, hget]]

theorem authorsStep_of_none (m : Dict) (hget : dget m "authors" = none) :
    normalizeAuthorsStep m = m := by
  unfold normalizeAuthorsStep
  rw [if_neg (by simp [dmem, hget])]

theorem keywordsStep_of_get (m : Dict) (v : Value) (hget : dget m "keywords" = some v) :
    normalizeKeywordsStep m = dset m "keywords" (normalizeKeywordsVal v) := by
  unfold normalizeKeywordsStep
  rw [if_pos (by simp [dmem, hget])]
  rw [show pyGet m "keywords" .null = v by simp [pyGet, hget]]

theorem keywordsStep_of_none (m : Dict) (hget : dget m "keywords" = none) :
    normalizeKeywordsStep m = m := by
  unfold normalizeKeywordsStep
  rw [if_neg (by simp [dmem, hget])]

/-- The keywords normalization step is idempotent for every record. -/
theorem keywordsStep_idem (m : Dict) :
    normalizeKeywordsStep (normalizeKeywordsStep m) = normalizeKeywordsStep m := by
  cases hK : dget m "keywords" with
  | none => rw [keywordsStep_of_none m hK, keywordsStep_of_none m hK]
  | some v =>
      rw [keywordsStep_of_get m v hK]
      have hg : dget (dset m "keywords" (normalizeKeywordsVal v)) "keywords" =
          some (normalizeKeywordsVal v) := dget_dset_self ..
      rw [keywordsStep_of_get _ _ hg, normalizeKeywordsVal_idem]
      exact dset_eq_self _ _ _ hg

/-- The authors step fixes a record whose authors binding is already a
normalized safe value. -/
theorem authorsStep_fix (m : Dict) (v : Value)
    (hget : dget m "authors" = some (normalizeAuthorsVal v)) (hsafe : authorsSafe v = true) :
    normalizeAuthorsStep m = m := by
  rw [authorsStep_of_get m _ hget]
  obtain ⟨l, hl, hne, hstr⟩ := normalizeAuthorsVal_shape v hsafe
  rw [hl] at hget ⊢
  rw [normalizeAuthorsVal_fixed l hne hstr]
  exact dset_eq_self _ _ _ hget

/-- Counterexample for C10: for the record `{"authors": ","}` the first
normalization yields `{"authors": []}` (the separator-containing
string splits into only empty pieces, all dropped) while the second
yields `{"authors": ["unknown"]}` — `normalize_metadata` is not
idempotent, and after one application the authors field is not always
non-empty. -/
theorem c10_normalize_idempotent_counterexample :
    normalize_metadata (normalize_metadata [("authors", .str ",")]) ≠
        normalize_metadata [("authors", .str ",")] ∧
    normalize_metadata [("authors", .str ",")] = [("authors", .list [])] := by
  decide

/-- Claim C10 (amended): `normalize_metadata` is idempotent on every
record whose authors value (when present) is a list free of
dict-shaped entries, a separator-containing string splitting into at
least one non-empty piece, a separator-free string, or a non-sequence
value; the keywords step is idempotent unconditionally. The
counterexample `{"authors": ","}` (and lists holding dict-shaped
author entries) are the only shapes excluded. -/
theorem c10_normalize_idempotent_amended (m : Dict) (h : idemSafe m = true) :
    normalize_metadata (normalize_metadata m) = normalize_metadata m := by
  unfold normalize_metadata
  cases hA : dget m "authors" with
  | none =>
      rw [authorsStep_of_none m hA]
      have h2 : dget (normalizeKeywordsStep m) "authors" = none := by
        rw [dget_keywordsStep_authors]
        exact hA
      rw [authorsStep_of_none _ h2, keywordsStep_idem]
  | some v =>
      have hsafe : authorsSafe v = true := by
        unfold idemSafe at h
        rw [hA] at h
        exact h
      rw [authorsStep_of_get m v hA]
      have hgA : dget (dset m "authors" (normalizeAuthorsVal v)) "authors" =
          some (normalizeAuthorsVal v) := dget_dset_self ..
      have hgAK : dget (normalizeKeywordsStep (dset m "authors" (normalizeAuthorsVal v)))
          "authors" = some (normalizeAuthorsVal v) := by
        rw [dget_keywordsStep_authors]
        exact hgA
      rw [authorsStep_fix _ v hgAK hsafe, keywordsStep_idem]

/-- Witness for the amended C10 at a record with a splitting authors
string and wrongly-typed keywords. -/
theorem c10_normalize_idempotent_amended_witness :
    normalize_metadata (normalize_metadata
        [("authors", .str "Doe, J.; Smith, A."), ("keywords", .list [.int 3])]) =
      normalize_metadata
        [("authors", .str "Doe, J.; Smith, A."), ("keywords", .list [.int 3])] :=
  c10_normalize_idempotent_amended
    [("authors", .str "Doe, J.; Smith, A."), ("keywords", .list [.int 3])] (by decide)

end MetadataExtraction
